import Mathlib

/-!
Verification of the tiled matrix-multiply kernel in
`src/sycl-spec-const/matmul.cpp` against its natural-language specification.

The kernel is embedded shallowly over exact rational arithmetic:

* matrices are flat row-major buffers, modelled as total functions `Nat → ℚ`
  (the kernel only ever evaluates them inside the index range it may touch,
  which is proved below);
* the scratch tiles `tileA`/`tileB` are modelled by the value each slot holds
  after the first barrier of a phase: slot `(ly, lx)` was stored by the thread
  with the same local id, and the group-wide barrier makes all `T × T` slots
  visible before any thread computes, so the tile contents are a pure function
  of `A`/`B`, the group coordinates and the phase;
* the kernel invocation is modelled operationally as the list of write events
  the grid performs on `C` (one optional write per thread), applied to the
  initial contents of the `C` buffer; scheduling freedom between threads is a
  permutation of that list.
-/

namespace Matmul

/-- Round `x` up to a multiple of `tile`; translated from `round_up` in
`matmul.cpp`: `(x + tile - 1) / tile * tile`. -/
def round_up (x tile : Nat) : Nat :=
  (x + tile - 1) / tile * tile

/-- Number of iterations of the kernel phase loop; translated from
`phases = (N + TILE - 1) / TILE` in `main`. -/
def phases (N T : Nat) : Nat :=
  (N + T - 1) / T

/-- Contents of scratch slot `tileA[ly][lx]` after the first barrier of phase
`p`, for the thread group in block row `b0`.  The slot was stored by the thread
with local id `(ly, lx)`, which computed `gy = b0*T + ly`, `a_col = p*T + lx`
and executed `tileA[ly][lx] = (gy < N && a_col < N) ? A[gy*N + a_col] : 0.0f`. -/
def tileA (A : Nat → ℚ) (N T b0 p ly lx : Nat) : ℚ :=
  if b0 * T + ly < N ∧ p * T + lx < N then A ((b0 * T + ly) * N + (p * T + lx)) else 0

/-- Contents of scratch slot `tileB[ly][lx]` after the first barrier of phase
`p`, for the thread group in block column `b1`.  The slot was stored by the
thread with local id `(ly, lx)`, which computed `b_row = p*T + ly`,
`gx = b1*T + lx` and executed
`tileB[ly][lx] = (b_row < N && gx < N) ? B[b_row*N + gx] : 0.0f`. -/
def tileB (B : Nat → ℚ) (N T b1 p ly lx : Nat) : ℚ :=
  if p * T + ly < N ∧ b1 * T + lx < N then B ((p * T + ly) * N + (b1 * T + lx)) else 0

/-- Final value of the register `acc` of the thread with local id `(ly, lx)`
in the group at block coordinates `(b0, b1)`: the kernel loops `p` over
`[0, phases)` and, inside each phase, `k` over `[0, TILE)`, accumulating
`acc += tileA[ly][k] * tileB[k][lx]`.  The two left folds mirror the loop
nesting and the accumulation order of the source. -/
def threadAcc (A B : Nat → ℚ) (N T b0 b1 ly lx : Nat) : ℚ :=
  (List.range (phases N T)).foldl
    (fun acc p =>
      (List.range T).foldl
        (fun acc k => acc + tileA A N T b0 p ly k * tileB B N T b1 p k lx) acc)
    0

/-- Store value `v` into cell `k` of a flat buffer. -/
def writeCell (c : Nat → ℚ) (k : Nat) (v : ℚ) : Nat → ℚ :=
  fun i => if i = k then v else c i

/-- Apply a list of write events `(index, value)` to a buffer, first event
first. -/
def applyWrites (C0 : Nat → ℚ) : List (Nat × ℚ) → (Nat → ℚ)
  | [] => C0
  | w :: ws => applyWrites (writeCell C0 w.1 w.2) ws

/-- The write events performed on `C` by one kernel invocation: the grid is
`{G0, G1} = {round_up(N,TILE), round_up(N,TILE)}` with one thread per global id
`(gy, gx)`; the thread belongs to group `(gy / T, gx / T)` with local id
`(gy % T, gx % T)`, and executes `if (gy < N && gx < N) C[gy*N + gx] = acc;`
after the phase loop, else stores nothing. -/
def writes (A B : Nat → ℚ) (N T : Nat) : List (Nat × ℚ) :=
  (List.range (round_up N T)).flatMap fun gy =>
    (List.range (round_up N T)).filterMap fun gx =>
      if gy < N ∧ gx < N then
        some (gy * N + gx, threadAcc A B N T (gy / T) (gx / T) (gy % T) (gx % T))
      else none

/-- One kernel invocation: apply every thread write to the initial contents of
the `C` buffer. -/
def multiply (A B C0 : Nat → ℚ) (N T : Nat) : Nat → ℚ :=
  applyWrites C0 (writes A B N T)

/-- The untiled triple-loop reference value of `C[i*N + j]`: the dot product of
row `i` of `A` and column `j` of `B`. -/
def matmulRef (A B : Nat → ℚ) (N i j : Nat) : ℚ :=
  ∑ k ∈ Finset.range N, A (i * N + k) * B (k * N + j)

/-- Reference accumulator of `verify_reference`: `ref = 0` then
`ref += A[i*N + k] * B[k*N + j]` for `k` in `[0, N)`. -/
def refEntry (A B : Nat → ℚ) (N i j : Nat) : ℚ :=
  (List.range N).foldl (fun r k => r + A (i * N + k) * B (k * N + j)) 0

/-- Translated from `verify_reference` in `matmul.cpp`: loop over all `(i, j)`,
recompute the entry with the triple loop, and return `false` on the first entry
with `fabs(C[i*N+j] - ref) > tol`, `true` if no entry exceeds the tolerance. -/
def verify_reference (A B C : Nat → ℚ) (N : Nat) (tol : ℚ) : Bool :=
  (List.range N).all fun i =>
    (List.range N).all fun j =>
      !(decide (|C (i * N + j) - refEntry A B N i j| > tol))

/-- Sequence of barrier events executed by one thread of the kernel, labelled
`2*p` for the post-load barrier and `2*p + 1` for the post-compute barrier of
phase `p`.  Both `it.barrier(...)` calls stand unconditionally in the body of
the phase loop, whose bound `phases` is the same for every thread, so the trace
is a constant function of the thread coordinates; the four arguments record
which thread is considered. -/
def barrierTrace (N T _b0 _b1 _ly _lx : Nat) : List Nat :=
  (List.range (phases N T)).flatMap fun p => [2 * p, 2 * p + 1]

/-- Wrapping subtraction of `std::size_t` operands below `2^64`. -/
def size_sub (i j : Nat) : Nat :=
  (i + 2 ^ 64 - j) % 2 ^ 64

/-- Host initialization of `A` in `main`:
`A[i*N + j] = static_cast<float>((i + j) % 7)`, where `i + j` is `size_t`
addition modulo `2^64`.  The resulting value lies in `[0, 6]`, exactly
representable, so the entry is modelled by the corresponding rational. -/
def initA (i j : Nat) : ℚ :=
  (((i + j) % 2 ^ 64) % 7 : Nat)

/-- Host initialization of `B` in `main`:
`B[i*N + j] = static_cast<float>((i - j) % 5)`, where `i - j` is `size_t`
subtraction (wrapping modulo `2^64`) and `% 5` is unsigned remainder.  The
resulting value lies in `[0, 4]`, exactly representable, so the entry is
modelled by the corresponding rational. -/
def initB (i j : Nat) : ℚ :=
  (size_sub i j % 5 : Nat)

/-- Concrete input buffer used to instantiate theorems: A[m] = m. -/
def wA : Nat → ℚ := fun m => (m : ℚ)

/-- Concrete input buffer used to instantiate theorems: B[m] = m + 1. -/
def wB : Nat → ℚ := fun m => (m : ℚ) + 1

/-- Concrete initial C buffer used to instantiate theorems. -/
def wC : Nat → ℚ := fun _ => 99

/-- Second concrete initial C buffer, different from `wC` everywhere. -/
def wC' : Nat → ℚ := fun _ => 123

/-- Buffer agreeing with `wA` on the in-range region `[0, 4)` of an `N = 2`
matrix and different outside it. -/
def wA' : Nat → ℚ := fun m => if m < 4 then (m : ℚ) else 77

/-- Buffer agreeing with `wB` on the in-range region `[0, 4)` of an `N = 2`
matrix and different outside it. -/
def wB' : Nat → ℚ := fun m => if m < 4 then (m : ℚ) + 1 else 55

/-! ### Elementary facts about folds, sums and flat indices -/

theorem foldl_add_eq (f : Nat → ℚ) (n : Nat) (c : ℚ) :
    (List.range n).foldl (fun a x => a + f x) c = c + ∑ x ∈ Finset.range n, f x := by
  induction n generalizing c with
  | zero => simp
  | succ n ih =>
      rw [List.range_succ, List.foldl_append, ih, Finset.sum_range_succ]
      simp [add_assoc]

theorem threadAcc_eq_sum (A B : Nat → ℚ) (N T b0 b1 ly lx : Nat) :
    threadAcc A B N T b0 b1 ly lx =
      ∑ p ∈ Finset.range (phases N T), ∑ k ∈ Finset.range T,
        tileA A N T b0 p ly k * tileB B N T b1 p k lx := by
  unfold threadAcc
  have h : (fun (acc : ℚ) (p : Nat) =>
        (List.range T).foldl
          (fun acc k => acc + tileA A N T b0 p ly k * tileB B N T b1 p k lx) acc)
      = fun (acc : ℚ) (p : Nat) =>
          acc + ∑ k ∈ Finset.range T, tileA A N T b0 p ly k * tileB B N T b1 p k lx := by
    funext acc p
    exact foldl_add_eq _ _ _
  rw [h, foldl_add_eq, zero_add]

theorem sum_range_add_eq (g : Nat → ℚ) (a b : Nat) :
    ∑ m ∈ Finset.range (a + b), g m
      = (∑ m ∈ Finset.range a, g m) + ∑ k ∈ Finset.range b, g (a + k) := by
  induction b with
  | zero => simp
  | succ b ih =>
      rw [← Nat.add_assoc, Finset.sum_range_succ, ih, Finset.sum_range_succ, add_assoc]

theorem sum_phases_collapse (g : Nat → ℚ) (P T : Nat) :
    ∑ p ∈ Finset.range P, ∑ k ∈ Finset.range T, g (p * T + k)
      = ∑ m ∈ Finset.range (P * T), g m := by
  induction P with
  | zero => simp
  | succ P ih =>
      rw [Finset.sum_range_succ, ih, Nat.succ_mul, sum_range_add_eq]

theorem sum_ite_range (f : Nat → ℚ) (M N : Nat) (h : N ≤ M) :
    ∑ m ∈ Finset.range M, (if m < N then f m else 0) = ∑ m ∈ Finset.range N, f m := by
  rw [← Finset.sum_filter]
  congr 1
  ext m
  simp only [Finset.mem_filter, Finset.mem_range]
  omega

theorem le_phases_mul (N T : Nat) (hT : 1 ≤ T) : N ≤ phases N T * T := by
  have h : N + T - 1 < (N + T - 1) / T * T + T := Nat.lt_div_mul_add hT
  have h2 : phases N T * T = (N + T - 1) / T * T := rfl
  rw [h2]
  revert h hT
  generalize (N + T - 1) / T * T = X
  intro hT h
  omega

theorem N_le_round_up (N T : Nat) (hT : 1 ≤ T) : N ≤ round_up N T :=
  le_phases_mul N T hT

theorem flat_lt (N i j : Nat) (hi : i < N) (hj : j < N) : i * N + j < N * N := by
  calc i * N + j < i * N + N := by omega
    _ = (i + 1) * N := by ring
    _ ≤ N * N := Nat.mul_le_mul_right N hi

theorem flat_div (N i j : Nat) (hj : j < N) : (i * N + j) / N = i := by
  have hN : 0 < N := Nat.lt_of_le_of_lt (Nat.zero_le j) hj
  rw [Nat.mul_comm i N, Nat.mul_add_div hN, Nat.div_eq_of_lt hj, Nat.add_zero]

theorem flat_mod (N i j : Nat) (hj : j < N) : (i * N + j) % N = j := by
  rw [Nat.mul_comm i N, Nat.mul_add_mod, Nat.mod_eq_of_lt hj]

theorem key_inj (N gy gx gy' gx' : Nat) (hx : gx < N) (hx' : gx' < N)
    (h : gy * N + gx = gy' * N + gx') : gy = gy' ∧ gx = gx' := by
  have h1 : (gy * N + gx) / N = gy := flat_div N gy gx hx
  have h2 : (gy' * N + gx') / N = gy' := flat_div N gy' gx' hx'
  have hgy : gy = gy' := by rw [← h1, ← h2, h]
  subst hgy
  exact ⟨rfl, Nat.add_left_cancel h⟩

/-! ### The write-event list: membership, key uniqueness, order independence -/

theorem mem_writes (A B : Nat → ℚ) (N T idx : Nat) (v : ℚ) :
    (idx, v) ∈ writes A B N T ↔
      ∃ gy gx, gy < round_up N T ∧ gx < round_up N T ∧ gy < N ∧ gx < N ∧
        idx = gy * N + gx ∧
        v = threadAcc A B N T (gy / T) (gx / T) (gy % T) (gx % T) := by
  unfold writes
  simp only [List.mem_flatMap, List.mem_filterMap, List.mem_range]
  constructor
  · rintro ⟨gy, hgy, gx, hgx, hsome⟩
    split_ifs at hsome with hc
    simp only [Option.some.injEq, Prod.mk.injEq] at hsome
    exact ⟨gy, gx, hgy, hgx, hc.1, hc.2, hsome.1.symm, hsome.2.symm⟩
  · rintro ⟨gy, gx, h1, h2, h3, h4, h5, h6⟩
    refine ⟨gy, h1, gx, h2, ?_⟩
    rw [if_pos ⟨h3, h4⟩, h5, h6]

theorem writes_keys (A B : Nat → ℚ) (N T : Nat) :
    (writes A B N T).map Prod.fst
      = (List.range (round_up N T)).flatMap fun gy =>
          (List.range (round_up N T)).filterMap fun gx =>
            if gy < N ∧ gx < N then some (gy * N + gx) else none := by
  unfold writes
  rw [List.map_flatMap]
  apply List.flatMap_congr
  intro gy _
  rw [List.map_filterMap]
  apply List.filterMap_congr
  intro gx _
  by_cases hc : gy < N ∧ gx < N
  · rw [if_pos hc, if_pos hc]
    rfl
  · rw [if_neg hc, if_neg hc]
    rfl

theorem writes_keys_nodup (A B : Nat → ℚ) (N T : Nat) :
    ((writes A B N T).map Prod.fst).Nodup := by
  rw [writes_keys]
  refine List.nodup_flatMap.2 ⟨?_, ?_⟩
  · intro gy _
    refine List.Nodup.filterMap ?_ (List.nodup_range _)
    intro a a' b hb hb'
    rw [Option.mem_def] at hb hb'
    by_cases ha : gy < N ∧ a < N
    · by_cases ha' : gy < N ∧ a' < N
      · rw [if_pos ha] at hb
        rw [if_pos ha'] at hb'
        have e1 : gy * N + a = b := Option.some.inj hb
        have e2 : gy * N + a' = b := Option.some.inj hb'
        exact (key_inj N gy a gy a' ha.2 ha'.2 (e1.trans e2.symm)).2
      · rw [if_neg ha'] at hb'
        exact Option.noConfusion hb'
    · rw [if_neg ha] at hb
      exact Option.noConfusion hb
  · refine (List.pairwise_lt_range _).imp ?_
    intro gy gy' hlt
    simp only [Function.onFun]
    intro k hk hk'
    obtain ⟨gx, _, hsome⟩ := List.mem_filterMap.1 hk
    obtain ⟨gx', _, hsome'⟩ := List.mem_filterMap.1 hk'
    split_ifs at hsome with hc
    split_ifs at hsome' with hc'
    have e1 : gy * N + gx = k := Option.some.inj hsome
    have e2 : gy' * N + gx' = k := Option.some.inj hsome'
    have := (key_inj N gy gx gy' gx' hc.2 hc'.2 (e1.trans e2.symm)).1
    omega

theorem applyWrites_not_mem (C0 : Nat → ℚ) (ws : List (Nat × ℚ)) (idx : Nat)
    (h : idx ∉ ws.map Prod.fst) : applyWrites C0 ws idx = C0 idx := by
  induction ws generalizing C0 with
  | nil => rfl
  | cons w ws ih =>
      simp only [List.map_cons, List.mem_cons, not_or] at h
      rw [applyWrites, ih _ h.2]
      unfold writeCell
      rw [if_neg h.1]

theorem applyWrites_mem (C0 : Nat → ℚ) (ws : List (Nat × ℚ)) (idx : Nat) (v : ℚ)
    (hnd : (ws.map Prod.fst).Nodup) (hmem : (idx, v) ∈ ws) :
    applyWrites C0 ws idx = v := by
  induction ws generalizing C0 with
  | nil => cases hmem
  | cons w ws ih =>
      simp only [List.map_cons, List.nodup_cons] at hnd
      rw [applyWrites]
      rcases List.mem_cons.1 hmem with heq | htail
      · have hfst : w.1 = idx := by rw [← heq]
        have hnot : idx ∉ ws.map Prod.fst := hfst ▸ hnd.1
        rw [applyWrites_not_mem _ _ _ hnot]
        unfold writeCell
        rw [if_pos hfst.symm, ← heq]
      · exact ih (writeCell C0 w.1 w.2) hnd.2 htail

theorem applyWrites_perm (C0 : Nat → ℚ) (ws ws' : List (Nat × ℚ))
    (hperm : ws.Perm ws') (hnd : (ws.map Prod.fst).Nodup) (idx : Nat) :
    applyWrites C0 ws idx = applyWrites C0 ws' idx := by
  by_cases hm : idx ∈ ws.map Prod.fst
  · obtain ⟨w, hw, hfst⟩ := List.mem_map.1 hm
    obtain ⟨k, v⟩ := w
    cases hfst
    rw [applyWrites_mem C0 ws k v hnd hw,
      applyWrites_mem C0 ws' k v (((hperm.map Prod.fst).nodup_iff).1 hnd)
        (hperm.mem_iff.1 hw)]
  · rw [applyWrites_not_mem _ _ _ hm,
      applyWrites_not_mem _ _ _ (fun hc => hm (((hperm.map Prod.fst).mem_iff).2 hc))]

/-! ### Characterization of one invocation -/

theorem multiply_in_range (A B C0 : Nat → ℚ) (N T i j : Nat)
    (hT : 1 ≤ T) (hi : i < N) (hj : j < N) :
    multiply A B C0 N T (i * N + j)
      = threadAcc A B N T (i / T) (j / T) (i % T) (j % T) :=
  applyWrites_mem C0 (writes A B N T) (i * N + j)
    (threadAcc A B N T (i / T) (j / T) (i % T) (j % T))
    (writes_keys_nodup A B N T)
    ((mem_writes A B N T (i * N + j) _).2
      ⟨i, j, lt_of_lt_of_le hi (N_le_round_up N T hT),
        lt_of_lt_of_le hj (N_le_round_up N T hT), hi, hj, rfl, rfl⟩)

theorem threadAcc_eq_dot (A B : Nat → ℚ) (N T i j : Nat)
    (hT : 1 ≤ T) (hi : i < N) (hj : j < N) :
    threadAcc A B N T (i / T) (j / T) (i % T) (j % T) = matmulRef A B N i j := by
  rw [threadAcc_eq_sum]
  have hiT : i / T * T + i % T = i := by
    rw [Nat.mul_comm]
    exact Nat.div_add_mod i T
  have hjT : j / T * T + j % T = j := by
    rw [Nat.mul_comm]
    exact Nat.div_add_mod j T
  have hstep : ∀ p ∈ Finset.range (phases N T), ∀ k ∈ Finset.range T,
      tileA A N T (i / T) p (i % T) k * tileB B N T (j / T) p k (j % T)
        = if p * T + k < N then A (i * N + (p * T + k)) * B ((p * T + k) * N + j)
          else 0 := by
    intro p _ k _
    unfold tileA tileB
    rw [hiT, hjT]
    by_cases hc : p * T + k < N
    · rw [if_pos ⟨hi, hc⟩, if_pos ⟨hc, hj⟩, if_pos hc]
    · rw [if_neg (fun h => hc h.2), if_neg (fun h => hc h.1), if_neg hc, mul_zero]
  calc ∑ p ∈ Finset.range (phases N T), ∑ k ∈ Finset.range T,
        tileA A N T (i / T) p (i % T) k * tileB B N T (j / T) p k (j % T)
      = ∑ p ∈ Finset.range (phases N T), ∑ k ∈ Finset.range T,
          (if p * T + k < N then A (i * N + (p * T + k)) * B ((p * T + k) * N + j)
           else 0) :=
        Finset.sum_congr rfl fun p hp => Finset.sum_congr rfl (hstep p hp)
    _ = ∑ m ∈ Finset.range (phases N T * T),
          (if m < N then A (i * N + m) * B (m * N + j) else 0) :=
        sum_phases_collapse (fun m => if m < N then A (i * N + m) * B (m * N + j) else 0)
          (phases N T) T
    _ = ∑ m ∈ Finset.range N, A (i * N + m) * B (m * N + j) :=
        sum_ite_range (fun m => A (i * N + m) * B (m * N + j)) (phases N T * T) N
          (le_phases_mul N T hT)
    _ = matmulRef A B N i j := rfl

theorem multiply_dot (A B C0 : Nat → ℚ) (N T i j : Nat)
    (hT : 1 ≤ T) (hi : i < N) (hj : j < N) :
    multiply A B C0 N T (i * N + j) = matmulRef A B N i j := by
  rw [multiply_in_range A B C0 N T i j hT hi hj, threadAcc_eq_dot A B N T i j hT hi hj]

theorem multiply_frame (A B C0 : Nat → ℚ) (N T idx : Nat) (h : N * N ≤ idx) :
    multiply A B C0 N T idx = C0 idx := by
  apply applyWrites_not_mem
  intro hc
  obtain ⟨w, hw, hfst⟩ := List.mem_map.1 hc
  obtain ⟨k, v⟩ := w
  cases hfst
  obtain ⟨gy, gx, _, _, h3, h4, h5, _⟩ := (mem_writes A B N T k v).1 hw
  have := flat_lt N gy gx h3 h4
  omega

/-! ### The kernel reads only in-range cells of A and B -/

theorem tileA_congr (A A' : Nat → ℚ) (N T b0 p ly lx : Nat)
    (hA : ∀ m, m < N * N → A m = A' m) :
    tileA A N T b0 p ly lx = tileA A' N T b0 p ly lx := by
  unfold tileA
  split_ifs with hc
  · exact hA _ (flat_lt N _ _ hc.1 hc.2)
  · rfl

theorem tileB_congr (B B' : Nat → ℚ) (N T b1 p ly lx : Nat)
    (hB : ∀ m, m < N * N → B m = B' m) :
    tileB B N T b1 p ly lx = tileB B' N T b1 p ly lx := by
  unfold tileB
  split_ifs with hc
  · exact hB _ (flat_lt N _ _ hc.1 hc.2)
  · rfl

theorem threadAcc_congr (A A' B B' : Nat → ℚ) (N T b0 b1 ly lx : Nat)
    (hA : ∀ m, m < N * N → A m = A' m) (hB : ∀ m, m < N * N → B m = B' m) :
    threadAcc A B N T b0 b1 ly lx = threadAcc A' B' N T b0 b1 ly lx := by
  rw [threadAcc_eq_sum, threadAcc_eq_sum]
  exact Finset.sum_congr rfl fun p _ => Finset.sum_congr rfl fun k _ => by
    rw [tileA_congr A A' N T b0 p ly k hA, tileB_congr B B' N T b1 p k lx hB]

theorem writes_congr (A A' B B' : Nat → ℚ) (N T : Nat)
    (hA : ∀ m, m < N * N → A m = A' m) (hB : ∀ m, m < N * N → B m = B' m) :
    writes A B N T = writes A' B' N T := by
  unfold writes
  apply List.flatMap_congr
  intro gy _
  apply List.filterMap_congr
  intro gx _
  by_cases hc : gy < N ∧ gx < N
  · rw [if_pos hc, if_pos hc, threadAcc_congr A A' B B' N T _ _ _ _ hA hB]
  · rw [if_neg hc, if_neg hc]

/-! ### The barrier trace of one thread -/

theorem flatMap_pairs_eq_range (n : Nat) :
    (List.range n).flatMap (fun p => [2 * p, 2 * p + 1]) = List.range (2 * n) := by
  induction n with
  | zero => rfl
  | succ n ih =>
      rw [List.range_succ, List.flatMap_append, ih]
      have h2 : 2 * (n + 1) = 2 * n + 1 + 1 := by ring
      rw [h2, List.range_succ, List.range_succ, List.append_assoc]
      rfl

/-! ### Grid derivation facts -/

theorem phases_le (N T P : Nat) (hT : 1 ≤ T) (hP : N ≤ P * T) : phases N T ≤ P := by
  unfold phases
  rw [Nat.div_le_iff_le_mul_add_pred hT, Nat.mul_comm T P]
  revert hP
  generalize P * T = X
  intro hP
  omega

theorem group_card (N T b : Nat) (hT : 1 ≤ T) (hb : b < phases N T) :
    ((Finset.range (round_up N T)).filter (fun g => g / T = b)).card = T := by
  have hset : (Finset.range (round_up N T)).filter (fun g => g / T = b)
      = Finset.Ico (b * T) (b * T + T) := by
    ext g
    simp only [Finset.mem_filter, Finset.mem_range, Finset.mem_Ico]
    constructor
    · rintro ⟨hg, hdiv⟩
      subst hdiv
      exact ⟨Nat.div_mul_le_self g T, Nat.lt_div_mul_add hT⟩
    · rintro ⟨h1, h2⟩
      refine ⟨?_, ?_⟩
      · calc g < b * T + T := h2
          _ = (b + 1) * T := by ring
          _ ≤ phases N T * T := Nat.mul_le_mul_right T hb
          _ = round_up N T := rfl
      · apply Nat.div_eq_of_lt_le h1
        rw [Nat.succ_mul]
        exact h2
  rw [hset, Nat.card_Ico, Nat.add_sub_cancel_left]

/-! ### The claims -/

/-- C1: for every `N ≥ 1` and every tile size `T ≥ 1` (`T` need not divide `N`)
and all input matrices `A`, `B` of shape `N×N`, the kernel produces a `C` such
that every in-range element `C[i,j]` (`0 ≤ i,j < N`) equals the dot product of
row `i` of `A` and column `j` of `B`, exactly under exact arithmetic. -/
theorem C1_kernel_computes_dot_product (A B C0 : Nat → ℚ) (N T i j : Nat)
    (hT : 1 ≤ T) (hi : i < N) (hj : j < N) :
    multiply A B C0 N T (i * N + j) = matmulRef A B N i j :=
  multiply_dot A B C0 N T i j hT hi hj

/-- Witness for C1 at `N = 3`, `T = 2` (a tile size that does not divide `N`). -/
theorem C1_witness :
    (1 : Nat) ≤ 2 ∧ 1 < 3 ∧ 2 < 3 ∧
      multiply wA wB wC 3 2 (1 * 3 + 2) = matmulRef wA wB 3 1 2 :=
  ⟨by decide, by decide, by decide,
    C1_kernel_computes_dot_product wA wB wC 3 2 1 2 (by decide) (by decide) (by decide)⟩

/-- C2: the kernel never reads `A` or `B` outside the index range `[0, N*N)`:
each staged load is guarded by its coordinate bounds and the out-of-range branch
substitutes `0.0`.  Consequently the result of an invocation is unchanged when
`A` and `B` are replaced by buffers agreeing with them on `[0, N*N)`, for every
`N` and `T`, including `N` not a multiple of `T` and `T > N`. -/
theorem C2_no_out_of_range_reads (A A' B B' C0 : Nat → ℚ) (N T : Nat)
    (hA : ∀ m, m < N * N → A m = A' m) (hB : ∀ m, m < N * N → B m = B' m)
    (idx : Nat) :
    multiply A B C0 N T idx = multiply A' B' C0 N T idx := by
  unfold multiply
  rw [writes_congr A A' B B' N T hA hB]

/-- Witness for C2 at `N = 2`, `T = 16` (tile larger than the matrix), with
buffers that differ arbitrarily outside the in-range region `[0, 4)`. -/
theorem C2_witness :
    (∀ m, m < 2 * 2 → wA m = wA' m) ∧ (∀ m, m < 2 * 2 → wB m = wB' m) ∧
      multiply wA wB wC 2 16 3 = multiply wA' wB' wC 2 16 3 := by
  have hA : ∀ m, m < 2 * 2 → wA m = wA' m := by
    intro m hm
    simp only [wA, wA']
    rw [if_pos hm]
  have hB : ∀ m, m < 2 * 2 → wB m = wB' m := by
    intro m hm
    simp only [wB, wB']
    rw [if_pos hm]
  exact ⟨hA, hB, C2_no_out_of_range_reads wA wA' wB wB' wC 2 16 hA hB 3⟩

/-- C3: for fixed `A`, `B`, `N`, running the kernel with any two tile sizes
`T1 ≥ 1` and `T2 ≥ 1` produces the same result everywhere (under exact
arithmetic), and both agree with the untiled triple-loop reference on every
in-range element: the tiling strategy does not change the computed function. -/
theorem C3_tiling_does_not_change_result (A B C0 : Nat → ℚ) (N T1 T2 : Nat)
    (h1 : 1 ≤ T1) (h2 : 1 ≤ T2) :
    (∀ idx, multiply A B C0 N T1 idx = multiply A B C0 N T2 idx) ∧
    (∀ i j, i < N → j < N → multiply A B C0 N T1 (i * N + j) = matmulRef A B N i j) := by
  constructor
  · intro idx
    rcases Nat.lt_or_ge idx (N * N) with hlt | hge
    · have hN : 0 < N := by
        rcases Nat.eq_zero_or_pos N with h0 | h0
        · subst h0
          omega
        · exact h0
      have hi : idx / N < N := (Nat.div_lt_iff_lt_mul hN).2 hlt
      have hj : idx % N < N := Nat.mod_lt _ hN
      have hdecomp : idx = idx / N * N + idx % N := by
        rw [Nat.mul_comm]
        exact (Nat.div_add_mod idx N).symm
      rw [hdecomp, multiply_dot A B C0 N T1 _ _ h1 hi hj,
        multiply_dot A B C0 N T2 _ _ h2 hi hj]
    · rw [multiply_frame A B C0 N T1 idx hge, multiply_frame A B C0 N T2 idx hge]
  · intro i j hi hj
    exact multiply_dot A B C0 N T1 i j h1 hi hj

/-- Witness for C3 at `N = 3` with tile sizes `1` and `4`. -/
theorem C3_witness :
    (1 : Nat) ≤ 1 ∧ (1 : Nat) ≤ 4 ∧
      ((∀ idx, multiply wA wB wC 3 1 idx = multiply wA wB wC 3 4 idx) ∧
       (∀ i j, i < 3 → j < 3 →
         multiply wA wB wC 3 1 (i * 3 + j) = matmulRef wA wB 3 i j)) :=
  ⟨by decide, by decide,
    C3_tiling_does_not_change_result wA wB wC 3 1 4 (by decide) (by decide)⟩

/-- C4: the final in-range contents of `C` are independent of the initial
contents of the `C` buffer, and every in-range element is covered by exactly
one write event of the grid (written exactly once, so `C` need not be
pre-zeroed). -/
theorem C4_independent_of_initial_C (A B C0 C0' : Nat → ℚ) (N T i j : Nat)
    (hT : 1 ≤ T) (hi : i < N) (hj : j < N) :
    multiply A B C0 N T (i * N + j) = multiply A B C0' N T (i * N + j) ∧
    ((writes A B N T).map Prod.fst).count (i * N + j) = 1 := by
  constructor
  · rw [multiply_in_range A B C0 N T i j hT hi hj,
      multiply_in_range A B C0' N T i j hT hi hj]
  · exact List.count_eq_one_of_mem (writes_keys_nodup A B N T)
      (List.mem_map.2
        ⟨(i * N + j, threadAcc A B N T (i / T) (j / T) (i % T) (j % T)),
          (mem_writes A B N T (i * N + j) _).2
            ⟨i, j, lt_of_lt_of_le hi (N_le_round_up N T hT),
              lt_of_lt_of_le hj (N_le_round_up N T hT), hi, hj, rfl, rfl⟩,
          rfl⟩)

/-- Witness for C4 at `N = 2`, `T = 2`, with initial buffers `wC ≠ wC'`. -/
theorem C4_witness :
    (1 : Nat) ≤ 2 ∧ 0 < 2 ∧ 1 < 2 ∧
      (multiply wA wB wC 2 2 (0 * 2 + 1) = multiply wA wB wC' 2 2 (0 * 2 + 1) ∧
       ((writes wA wB 2 2).map Prod.fst).count (0 * 2 + 1) = 1) :=
  ⟨by decide, by decide, by decide,
    C4_independent_of_initial_C wA wB wC wC' 2 2 0 1 (by decide) (by decide) (by decide)⟩

/-- C5: the kernel is deterministic for a fixed `T`: each element of `C` is
written once with a value that is a pure function of `A`, `B`, `N`, `T` and the
thread coordinates (fixed phase-major, then intra-tile k-major accumulation
order), so applying the grid's write events in any scheduling order yields the
same `C` as the reference invocation at every index. -/
theorem C5_deterministic (A B C0 : Nat → ℚ) (N T : Nat)
    (ws' : List (Nat × ℚ)) (hperm : (writes A B N T).Perm ws') (idx : Nat) :
    applyWrites C0 ws' idx = multiply A B C0 N T idx :=
  (applyWrites_perm C0 (writes A B N T) ws' hperm (writes_keys_nodup A B N T) idx).symm

/-- Witness for C5 at `N = 2`, `T = 1`, scheduling the thread writes in
reversed order. -/
theorem C5_witness :
    (writes wA wB 2 1).Perm (writes wA wB 2 1).reverse ∧
      applyWrites wC (writes wA wB 2 1).reverse 2 = multiply wA wB wC 2 1 2 :=
  ⟨(List.reverse_perm (writes wA wB 2 1)).symm,
    C5_deterministic wA wB wC 2 1 (writes wA wB 2 1).reverse
      ((List.reverse_perm (writes wA wB 2 1)).symm) 2⟩

/-- C6: every thread reaches each of the two per-phase barriers: the barrier
trace of any thread is exactly `0, 1, ..., 2*phases - 1` (two barriers per
phase, in order), it is identical for all threads of the grid — the phase-loop
bound and both barrier calls are not guarded by any thread-id-dependent
condition — and its length is `2 * phases N T` with `phases = ⌈N/T⌉`. -/
theorem C6_barriers_uniform (N T b0 b1 ly lx b0' b1' ly' lx' : Nat) :
    barrierTrace N T b0 b1 ly lx = List.range (2 * phases N T) ∧
    barrierTrace N T b0 b1 ly lx = barrierTrace N T b0' b1' ly' lx' ∧
    (barrierTrace N T b0 b1 ly lx).length = 2 * phases N T := by
  have h : barrierTrace N T b0 b1 ly lx = List.range (2 * phases N T) :=
    flatMap_pairs_eq_range (phases N T)
  exact ⟨h, rfl, by rw [h, List.length_range]⟩

/-- C7: for every `N ≥ 1` and `T ≥ 1`, `round_up (N, T)` is `⌈N/T⌉ * T`
(`phases N T` is the least `P` with `N ≤ P * T`, i.e. `⌈N/T⌉`), the padded
grid extent equals `phases N T * T`, it is a multiple of `T`, and every thread
group of the grid consists of exactly `T` global ids per dimension (`T×T`
threads). -/
theorem C7_grid_derivation (N T : Nat) (hT : 1 ≤ T) :
    N ≤ phases N T * T ∧
    (∀ P, N ≤ P * T → phases N T ≤ P) ∧
    round_up N T = phases N T * T ∧
    T ∣ round_up N T ∧
    ∀ b, b < phases N T →
      ((Finset.range (round_up N T)).filter (fun g => g / T = b)).card = T :=
  ⟨le_phases_mul N T hT, fun P hP => phases_le N T P hT hP, rfl,
    ⟨phases N T, Nat.mul_comm (phases N T) T⟩, fun b hb => group_card N T b hT hb⟩

/-- Witness for C7 at `N = 10`, `T = 4` (`N` not a multiple of `T`). -/
theorem C7_witness :
    (1 : Nat) ≤ 4 ∧
      (10 ≤ phases 10 4 * 4 ∧
       (∀ P, 10 ≤ P * 4 → phases 10 4 ≤ P) ∧
       round_up 10 4 = phases 10 4 * 4 ∧
       4 ∣ round_up 10 4 ∧
       ∀ b, b < phases 10 4 →
         ((Finset.range (round_up 10 4)).filter (fun g => g / 4 = b)).card = 4) :=
  ⟨by decide, C7_grid_derivation 10 4 (by decide)⟩

/-- C8: the kernel writes nothing outside the in-range `N*N` region of `C`:
every index the invocation leaves different from the initial buffer is below
`N*N` (a thread with `gy ≥ N` or `gx ≥ N` performs no store at all), and every
write event of the grid targets an index below `N*N`.  `A` and `B` are read-only
inputs of the embedded kernel. -/
theorem C8_frame (A B C0 : Nat → ℚ) (N T : Nat) :
    (∀ idx, N * N ≤ idx → multiply A B C0 N T idx = C0 idx) ∧
    (∀ k ∈ (writes A B N T).map Prod.fst, k < N * N) := by
  constructor
  · exact fun idx h => multiply_frame A B C0 N T idx h
  · intro k hk
    obtain ⟨w, hw, hfst⟩ := List.mem_map.1 hk
    obtain ⟨k', v⟩ := w
    cases hfst
    obtain ⟨gy, gx, _, _, h3, h4, h5, _⟩ := (mem_writes A B N T k' v).1 hw
    subst h5
    exact flat_lt N gy gx h3 h4

/-- C9: `verify_reference A B C N tol` returns `true` if and only if every
in-range element of `C` is within `tol` of the triple-loop reference value
(strict excess `> tol` triggers failure); the routine only returns a Boolean,
it never throws and never aborts. -/
theorem C9_verify_reference_iff (A B C : Nat → ℚ) (N : Nat) (tol : ℚ) :
    verify_reference A B C N tol = true ↔
      ∀ i, i < N → ∀ j, j < N → |C (i * N + j) - matmulRef A B N i j| ≤ tol := by
  have href : ∀ i j : Nat, refEntry A B N i j = matmulRef A B N i j := by
    intro i j
    unfold refEntry matmulRef
    rw [foldl_add_eq, zero_add]
  unfold verify_reference
  simp only [List.all_eq_true, List.mem_range, Bool.not_eq_true',
    decide_eq_false_iff_not, not_lt, href]

/-- C10: the host initialization computes `B[i*N+j] = float((i - j) % 5)` in
unsigned `size_t` arithmetic: for `j > i` the subtraction wraps modulo `2^64`
and the stored value is `((i - j) mod 2^64) mod 5` — in particular
`B[0][1] = (2^64 - 1) mod 5 = 0` — not the signed mathematical remainder of
`i - j`; for `j ≤ i` it is the ordinary `(i - j) % 5`, and `A`'s `(i + j) % 7`
is unaffected whenever `i + j` does not wrap. -/
theorem C10_initB_unsigned_wraparound :
    initB 0 1 = 0 ∧
    (∀ i j, i < j → j < 2 ^ 64 → initB i j = (((2 ^ 64 - (j - i)) % 5 : Nat) : ℚ)) ∧
    (∀ i j, j ≤ i → i < 2 ^ 64 → initB i j = (((i - j) % 5 : Nat) : ℚ)) ∧
    (∀ i j, i + j < 2 ^ 64 → initA i j = (((i + j) % 7 : Nat) : ℚ)) ∧
    initB 0 1 ≠ (((-1 : Int) % 5 : Int) : ℚ) := by
  have ha : initB 0 1 = 0 := by decide
  refine ⟨ha, ?_, ?_, ?_, ?_⟩
  · intro i j hij hj
    have h1 : (i + 2 ^ 64 - j) % 2 ^ 64 = 2 ^ 64 - (j - i) := by omega
    simp only [initB, size_sub, h1]
  · intro i j hji hi
    have h1 : (i + 2 ^ 64 - j) % 2 ^ 64 = i - j := by omega
    simp only [initB, size_sub, h1]
  · intro i j hij
    have h1 : (i + j) % 2 ^ 64 = i + j := Nat.mod_eq_of_lt hij
    simp only [initA, h1]
  · rw [ha]
    decide

end Matmul
